import Mathlib

/-!
Verification of the asynchronous logger in `include/logger.hpp`
(the most complete draft of the repository; the other files are earlier,
synchronous-only drafts of the same design).

The development is a shallow embedding of the C++ source:

* `LogPriority`, `LogMode`, `LogEvent` mirror the enums and the event struct.
* `MpscQueue` embeds the intrusive linked-list queue.  C++ heap nodes are
  modelled as an association list from abstract addresses (`Nat`) to
  `Node`s; `new` allocates the next unused address (`freshAddr`), `delete`
  removes the binding.  `enqueue`, `dequeue`, `empty` and the destructor
  (`drainList` / `destruct`) are direct transcriptions of the member
  functions, with `enqueue` split into the same two steps as the source:
  the tail exchange (`enqueueStep1`) and the link publish (`publishLink`).
* `Logger` carries the member fields of the C++ class; `Logger.log`,
  `Logger.leveled` (the body of the per-level `XX` macro) and
  `Logger.write_to_appenders` are transcriptions of the member functions.
  Every run of a source operation additionally reports an `Effects`
  record counting the observable side effects the source line would have
  performed (message rendering, timestamp / thread-id capture, enqueue,
  counter increment, wake, sink calls), so "no observable effect" claims
  are statements about the model rather than about its silence.
* `FileAppender` and `stripAnsi` embed the file sink, including the ANSI
  escape-stripping regex, transcribed as a recursive scanner.
* `Sys` / `Step` is a small-step interleaving model of the producers'
  enqueue-increment-notify protocol against the worker's
  dequeue-decrement-wait loop, used for the wake-protocol claim.
-/

namespace LoggerHpp

/-- The `LogPriority` enum of the source (underlying values 0..5). -/
inductive LogPriority where
  | TRACE
  | DEBUG
  | INFO
  | WARN
  | ERROR
  | FATAL
deriving DecidableEq, Repr, Inhabited

/-- The underlying `uint8_t` value of a `LogPriority`; the source compares
priorities with the built-in comparison of these values. -/
def LogPriority.toNat : LogPriority → Nat
  | .TRACE => 0
  | .DEBUG => 1
  | .INFO => 2
  | .WARN => 3
  | .ERROR => 4
  | .FATAL => 5

/-- The `LogMode` enum of the source. -/
inductive LogMode where
  | SYNC
  | ASYNC
deriving DecidableEq, Repr, Inhabited

/-- One heap node of `MpscQueue<T>`: the payload and the `_next` link,
a link being an abstract address (`Nat`) or null (`none`). -/
structure Node (T : Type) where
  data : T
  next : Option Nat
deriving DecidableEq, Repr

/-- The state of an `MpscQueue<T>`.  `heap` is the set of live nodes as an
association list from abstract addresses to nodes, `head` and `tail` are
the `_head` and `_tail` atomic pointers, and `freshAddr` is the next
address `new` hands out (all live addresses are below it). -/
structure MpscQueue (T : Type) where
  heap : List (Nat × Node T)
  head : Nat
  tail : Nat
  freshAddr : Nat
deriving DecidableEq, Repr

/-- The `MpscQueue` constructor: one sentinel node (default-constructed
payload), `_head` and `_tail` both pointing at it. -/
def MpscQueue.new (T : Type) [Inhabited T] : MpscQueue T :=
  { heap := [(0, ⟨default, none⟩)], head := 0, tail := 0, freshAddr := 1 }

/-- Overwrite the `_next` field of the node at address `a`. -/
def setNext {T : Type} (h : List (Nat × Node T)) (a : Nat) (nxt : Option Nat) :
    List (Nat × Node T) :=
  h.map fun p => if p.1 = a then (p.1, ⟨p.2.data, nxt⟩) else p

/-- Free (`delete`) the node at address `a`. -/
def eraseKey {T : Type} (h : List (Nat × Node T)) (a : Nat) : List (Nat × Node T) :=
  h.filter fun p => p.1 != a

/-- First half of `MpscQueue::enqueue`: allocate the new node and perform
`_tail.exchange(new_node)`.  Returns the previous tail (the exchange's
result) together with the intermediate queue state, in which the new node
is already the tail but no link to it has been published yet. -/
def MpscQueue.enqueueStep1 {T : Type} (q : MpscQueue T) (v : T) : Nat × MpscQueue T :=
  (q.tail,
   { heap := (q.freshAddr, ⟨v, none⟩) :: q.heap,
     head := q.head, tail := q.freshAddr, freshAddr := q.freshAddr + 1 })

/-- Second half of `MpscQueue::enqueue`: `prev_head->_next.store(new_node)`,
publishing the node at `target` as the successor of the node at `prev`. -/
def MpscQueue.publishLink {T : Type} (q : MpscQueue T) (prev target : Nat) : MpscQueue T :=
  { q with heap := setNext q.heap prev (some target) }

/-- `MpscQueue::enqueue`: the tail exchange followed by the link publish. -/
def MpscQueue.enqueue {T : Type} (q : MpscQueue T) (v : T) : MpscQueue T :=
  let s := q.enqueueStep1 v
  s.2.publishLink s.1 s.2.tail

/-- `MpscQueue::dequeue`: read `_head`, read its `_next`; if null report
empty, otherwise move the successor's payload out, advance `_head` to the
successor and `delete` the old head.  A dangling `_head` (never reachable
through the public operations) also reports empty. -/
def MpscQueue.dequeue {T : Type} (q : MpscQueue T) : Option (T × MpscQueue T) :=
  match q.heap.lookup q.head with
  | none => none
  | some hn =>
    match hn.next with
    | none => none
    | some nxt =>
      match q.heap.lookup nxt with
      | none => none
      | some nn =>
        some (nn.data, { q with heap := eraseKey q.heap q.head, head := nxt })

/-- `MpscQueue::empty`: whether `_head->_next` is null. -/
def MpscQueue.empty {T : Type} (q : MpscQueue T) : Bool :=
  match q.heap.lookup q.head with
  | none => true
  | some hn => hn.next.isNone

/-- A successful `dequeue` frees the old head node, so the heap shrinks. -/
theorem lookup_some_filter_length {T : Type} {h : List (Nat × Node T)} {a : Nat}
    {n : Node T} (hl : h.lookup a = some n) :
    (h.filter fun p => p.1 != a).length < h.length := by
  induction h with
  | nil => simp [List.lookup] at hl
  | cons p t ih =>
    by_cases hpa : p.1 = a
    · have : (p.1 != a) = false := by simp [hpa]
      simp only [List.filter, this]
      exact Nat.lt_succ_of_le (List.length_filter_le _ t)
    · have hne : (p.1 != a) = true := by simp [hpa]
      simp only [List.lookup, List.filter, hne] at hl ⊢
      rw [show (a == p.1) = false by simp [Ne.symm hpa]] at hl
      exact Nat.succ_lt_succ (ih hl)

/-- A successful `dequeue` strictly shrinks the heap. -/
theorem MpscQueue.dequeue_length {T : Type} {q : MpscQueue T} {v : T}
    {q' : MpscQueue T} (hd : q.dequeue = some (v, q')) :
    q'.heap.length < q.heap.length := by
  unfold MpscQueue.dequeue at hd
  cases hh : q.heap.lookup q.head with
  | none => simp [hh] at hd
  | some hn =>
    simp only [hh] at hd
    cases hnx : hn.next with
    | none => simp [hnx] at hd
    | some nxt =>
      simp only [hnx] at hd
      cases hn2 : q.heap.lookup nxt with
      | none => simp [hn2] at hd
      | some nn =>
        simp only [hn2, Option.some.injEq, Prod.mk.injEq] at hd
        rw [← hd.2]
        exact lookup_some_filter_length hh

/-- The destructor's drain loop `while (dequeue(temp));`, additionally
recording the (discarded) payloads it dequeued, in order. -/
def MpscQueue.drainList {T : Type} (q : MpscQueue T) : List T × MpscQueue T :=
  match hd : q.dequeue with
  | none => ([], q)
  | some s =>
    let r := s.2.drainList
    (s.1 :: r.1, r.2)
termination_by q.heap.length
decreasing_by exact MpscQueue.dequeue_length hd

/-- `MpscQueue::~MpscQueue`: drain every remaining event, then
`delete _head.load()` — free the final sentinel.  The result is the heap
left after destruction (empty iff every node was freed). -/
def MpscQueue.destruct {T : Type} (q : MpscQueue T) : MpscQueue T :=
  let d := (q.drainList).2
  { d with heap := eraseKey d.heap d.head }

/-- `chainB h a addrs` says `addrs` is the list of node addresses reached
from `a` by following `_next` links in heap `h`, the last one having a
null link. -/
def chainB {T : Type} (h : List (Nat × Node T)) : Nat → List Nat → Bool
  | _, [] => false
  | a, [b] => a == b && ((h.lookup a).map Node.next == some none)
  | a, b :: c :: rest =>
    a == b && ((h.lookup a).map Node.next == some (some c)) && chainB h c (c :: rest)

/-- Representation invariant of a queue state, as every state reachable
through the public operations satisfies it: the heap is exactly a chain of
distinct nodes from `_head` (the sentinel) to `_tail`, and every live
address was produced by the allocator. -/
structure QueueInv {T : Type} (q : MpscQueue T) (addrs : List Nat) : Prop where
  chain : chainB q.heap q.head addrs = true
  nodup : addrs.Nodup
  keys : (q.heap.map Prod.fst).Perm addrs
  tailLast : addrs.getLast? = some q.tail
  freshBound : ∀ a ∈ addrs, a < q.freshAddr

/-- The payload stored at address `a` (default if the address is dead,
which never happens on chain addresses). -/
def dataAt {T : Type} [Inhabited T] (h : List (Nat × Node T)) (a : Nat) : T :=
  ((h.lookup a).map Node.data).getD default

/-- The queue's abstract contents: the payloads of the chain past the
sentinel, oldest first. -/
def queueVals {T : Type} [Inhabited T] (q : MpscQueue T) (addrs : List Nat) : List T :=
  (addrs.drop 1).map (dataAt q.heap)

theorem lookup_setNext {T : Type} (h : List (Nat × Node T)) (a b : Nat) (nxt : Option Nat) :
    (setNext h b nxt).lookup a =
      if a = b then (h.lookup a).map (fun n => (⟨n.data, nxt⟩ : Node T))
      else h.lookup a := by
  induction h with
  | nil => by_cases hab : a = b <;> simp [setNext, List.lookup, hab]
  | cons p t ih =>
    simp only [setNext, List.map_cons] at ih ⊢
    by_cases hpb : p.1 = b
    · rw [if_pos hpb]
      by_cases hap : a = p.1
      · have hab : a = b := hap.trans hpb
        have ht : (a == p.1) = true := by simp [hap]
        simp only [List.lookup, ht, if_pos hab]
        rfl
      · have hf : (a == p.1) = false := by simp [hap]
        simp only [List.lookup, hf]
        exact ih
    · rw [if_neg hpb]
      by_cases hap : a = p.1
      · have hab : ¬a = b := fun hh => hpb (hap.symm.trans hh)
        have ht : (a == p.1) = true := by simp [hap]
        simp only [List.lookup, ht, if_neg hab]
      · have hf : (a == p.1) = false := by simp [hap]
        simp only [List.lookup, hf]
        exact ih

theorem lookup_eraseKey {T : Type} (h : List (Nat × Node T)) (a b : Nat) :
    (eraseKey h b).lookup a = if a = b then none else h.lookup a := by
  induction h with
  | nil => by_cases hab : a = b <;> simp [eraseKey, List.lookup, hab]
  | cons p t ih =>
    simp only [eraseKey, List.filter_cons] at ih ⊢
    by_cases hpb : p.1 = b
    · have hf : (p.1 != b) = false := by simp [hpb]
      rw [hf]
      simp only [Bool.false_eq_true, if_false]
      by_cases hab : a = b
      · rw [if_pos hab, ih, if_pos hab]
      · have hap : (a == p.1) = false := by
          simp [show ¬a = p.1 from fun hh => hab (hh.trans hpb)]
        rw [if_neg hab, ih, if_neg hab]
        simp only [List.lookup, hap]
    · have ht : (p.1 != b) = true := by simp [hpb]
      rw [ht]
      simp only [if_true]
      by_cases hap : a = p.1
      · have hab : ¬a = b := fun hh => hpb (hap.symm.trans hh)
        have htt : (a == p.1) = true := by simp [hap]
        simp only [List.lookup, htt, if_neg hab]
      · have hf : (a == p.1) = false := by simp [hap]
        simp only [List.lookup, hf]
        exact ih

theorem lookup_eq_none_of_not_mem_keys {T : Type} {h : List (Nat × Node T)} {a : Nat}
    (ha : a ∉ h.map Prod.fst) : h.lookup a = none := by
  induction h with
  | nil => rfl
  | cons p t ih =>
    simp only [List.map_cons, List.mem_cons, not_or] at ha
    have hf : (a == p.1) = false := by simp [ha.1]
    simp only [List.lookup, hf]
    exact ih ha.2

theorem keys_setNext {T : Type} (h : List (Nat × Node T)) (b : Nat) (nxt : Option Nat) :
    (setNext h b nxt).map Prod.fst = h.map Prod.fst := by
  induction h with
  | nil => rfl
  | cons p t ih =>
    simp only [setNext, List.map_cons] at ih ⊢
    by_cases hpb : p.1 = b
    · rw [if_pos hpb, ih, hpb]
    · rw [if_neg hpb, ih]

theorem keys_eraseKey {T : Type} (h : List (Nat × Node T)) (b : Nat) :
    (eraseKey h b).map Prod.fst = (h.map Prod.fst).filter (fun k => k != b) := by
  induction h with
  | nil => rfl
  | cons p t ih =>
    simp only [eraseKey, List.map_cons, List.filter_cons] at ih ⊢
    by_cases hpb : p.1 = b
    · have hf : (p.1 != b) = false := by simp [hpb]
      rw [hf]
      simp only [Bool.false_eq_true, if_false]
      exact ih
    · have ht : (p.1 != b) = true := by simp [hpb]
      rw [ht]
      simp only [if_true, List.map_cons]
      rw [ih]

theorem dataAt_setNext {T : Type} [Inhabited T] (h : List (Nat × Node T))
    (a b : Nat) (nxt : Option Nat) : dataAt (setNext h b nxt) a = dataAt h a := by
  unfold dataAt
  rw [lookup_setNext]
  by_cases hab : a = b
  · rw [if_pos hab]
    cases h.lookup a <;> rfl
  · rw [if_neg hab]

theorem dataAt_eraseKey_ne {T : Type} [Inhabited T] (h : List (Nat × Node T))
    {a b : Nat} (hab : a ≠ b) : dataAt (eraseKey h b) a = dataAt h a := by
  unfold dataAt
  rw [lookup_eraseKey, if_neg hab]

theorem dataAt_cons_ne {T : Type} [Inhabited T] (h : List (Nat × Node T))
    {a b : Nat} (nd : Node T) (hab : a ≠ b) : dataAt ((b, nd) :: h) a = dataAt h a := by
  unfold dataAt
  have hf : (a == b) = false := by simp [hab]
  simp only [List.lookup, hf]

theorem chainB_head {T : Type} {h : List (Nat × Node T)} {a : Nat} {addrs : List Nat}
    (hc : chainB h a addrs = true) : addrs.head? = some a := by
  match addrs with
  | [] => simp [chainB] at hc
  | [b] =>
    simp only [chainB, Bool.and_eq_true, beq_iff_eq] at hc
    simp [hc.1]
  | b :: c :: rest =>
    simp only [chainB, Bool.and_eq_true, beq_iff_eq] at hc
    simp [hc.1.1]

theorem chainB_congr {T : Type} {h1 h2 : List (Nat × Node T)} {addrs : List Nat} :
    ∀ {a : Nat}, (∀ x ∈ addrs, h2.lookup x = h1.lookup x) →
      chainB h1 a addrs = true → chainB h2 a addrs = true := by
  induction addrs with
  | nil => intro a _ hc; simp [chainB] at hc
  | cons b rest ih =>
    intro a hagree hc
    cases rest with
    | nil =>
      simp only [chainB, Bool.and_eq_true, beq_iff_eq] at hc ⊢
      obtain ⟨hab, hnx⟩ := hc
      subst hab
      exact ⟨rfl, by rw [hagree a (by simp)]; exact hnx⟩
    | cons c rest2 =>
      simp only [chainB, Bool.and_eq_true, beq_iff_eq] at hc ⊢
      obtain ⟨⟨hab, hnx⟩, hrest⟩ := hc
      subst hab
      refine ⟨⟨rfl, ?_⟩, ?_⟩
      · rw [hagree a (by simp)]; exact hnx
      · exact ih (fun x hx => hagree x (List.mem_cons_of_mem _ hx)) hrest

theorem mem_of_getLastSome {l : List Nat} {t : Nat} (h : l.getLast? = some t) : t ∈ l := by
  induction l with
  | nil => simp [List.getLast?] at h
  | cons a rest ih =>
    cases rest with
    | nil =>
      simp only [List.getLast?_singleton, Option.some.injEq] at h
      simp [h]
    | cons b rest2 =>
      rw [List.getLast?_cons_cons] at h
      exact List.mem_cons_of_mem _ (ih h)

/-- The node a chain ends at carries a null link. -/
theorem chainB_last_next {T : Type} {h : List (Nat × Node T)} {addrs : List Nat} :
    ∀ {a t : Nat}, chainB h a addrs = true → addrs.getLast? = some t →
      (h.lookup t).map Node.next = some none := by
  induction addrs with
  | nil => intro a t hc _; simp [chainB] at hc
  | cons b rest ih =>
    intro a t hc hlast
    cases rest with
    | nil =>
      simp only [chainB, Bool.and_eq_true, beq_iff_eq] at hc
      simp only [List.getLast?_singleton, Option.some.injEq] at hlast
      rw [← hlast, ← hc.1]
      exact hc.2
    | cons c rest2 =>
      simp only [chainB, Bool.and_eq_true, beq_iff_eq] at hc
      rw [List.getLast?_cons_cons] at hlast
      exact ih hc.2 hlast

/-- Every address on a chain is bound in the heap. -/
theorem chainB_lookup_isSome {T : Type} {h : List (Nat × Node T)} {addrs : List Nat} :
    ∀ {a : Nat}, chainB h a addrs = true → ∀ x ∈ addrs, (h.lookup x).isSome = true := by
  induction addrs with
  | nil => intro a hc; simp [chainB] at hc
  | cons b rest ih =>
    intro a hc x hx
    cases rest with
    | nil =>
      simp only [chainB, Bool.and_eq_true, beq_iff_eq] at hc
      simp only [List.mem_singleton] at hx
      obtain ⟨hab, hnx⟩ := hc
      subst hab hx
      cases hl : h.lookup x with
      | none => rw [hl] at hnx; simp at hnx
      | some n => rfl
    | cons c rest2 =>
      simp only [chainB, Bool.and_eq_true, beq_iff_eq] at hc
      obtain ⟨⟨hab, hnx⟩, hrest⟩ := hc
      rcases List.mem_cons.mp hx with hxb | hxrest
      · subst hab hxb
        cases hl : h.lookup x with
        | none => rw [hl] at hnx; simp at hnx
        | some n => rfl
      · exact ih hrest x hxrest

/-- Appending a freshly allocated node at the tail extends the chain: the
heap grows by the new node and the old tail's link is redirected to it. -/
theorem chainB_snoc {T : Type} {h : List (Nat × Node T)} {v : T} {addrs : List Nat} :
    ∀ {a t n : Nat}, chainB h a addrs = true → addrs.getLast? = some t →
      addrs.Nodup → n ∉ addrs →
      chainB ((n, ⟨v, none⟩) :: setNext h t (some n)) a (addrs ++ [n]) = true := by
  induction addrs with
  | nil => intro a t n hc _ _ _; simp [chainB] at hc
  | cons b rest ih =>
    intro a t n hc hlast hnd hn
    cases rest with
    | nil =>
      simp only [chainB, Bool.and_eq_true, beq_iff_eq] at hc
      simp only [List.getLast?_singleton, Option.some.injEq] at hlast
      obtain ⟨hab, hnx⟩ := hc
      subst hab hlast
      have hna : ¬a = n := fun hh => hn (by simp [hh])
      have hfa : (a == n) = false := by simp [hna]
      have h1 : (List.lookup a ((n, (⟨v, none⟩ : Node T)) :: setNext h a (some n))).map
          Node.next = some (some n) := by
        simp only [List.lookup, hfa, lookup_setNext, if_pos rfl]
        cases hl : h.lookup a with
        | none => rw [hl] at hnx; simp at hnx
        | some nd => simp
      have h2 : (List.lookup n ((n, (⟨v, none⟩ : Node T)) :: setNext h a (some n))).map
          Node.next = some none := by
        simp [List.lookup]
      simp [chainB, h1, h2]
    | cons c rest2 =>
      simp only [chainB, Bool.and_eq_true, beq_iff_eq] at hc
      rw [List.getLast?_cons_cons] at hlast
      obtain ⟨⟨hab, hnx⟩, hrest⟩ := hc
      subst hab
      have hat : ¬a = t := by
        intro hh
        have : t ∈ c :: rest2 := mem_of_getLastSome hlast
        rw [← hh] at this
        exact (List.nodup_cons.mp hnd).1 this
      have hna : ¬a = n := fun hh => hn (by simp [hh])
      have hfa : (a == n) = false := by simp [hna]
      have h1 : (List.lookup a ((n, (⟨v, none⟩ : Node T)) :: setNext h t (some n))).map
          Node.next = some (some c) := by
        simp only [List.lookup, hfa, lookup_setNext, if_neg hat]
        exact hnx
      have h2 := ih (a := c) (t := t) (n := n) hrest hlast
        (List.nodup_cons.mp hnd).2 (fun hh => hn (List.mem_cons_of_mem _ hh))
      simp only [List.cons_append] at h2 ⊢
      simp [chainB, h1, h2]

/-- Deleting a node that is not on the chain leaves the chain intact. -/
theorem chainB_erase {T : Type} {h : List (Nat × Node T)} {addrs : List Nat} {a s : Nat}
    (hc : chainB h a addrs = true) (hs : s ∉ addrs) :
    chainB (eraseKey h s) a addrs = true := by
  refine chainB_congr (fun x hx => ?_) hc
  rw [lookup_eraseKey, if_neg (fun hh : x = s => hs (hh ▸ hx))]

theorem map_congr_mem {α β : Type _} {l : List α} {f g : α → β}
    (h : ∀ a ∈ l, f a = g a) : l.map f = l.map g := by
  induction l with
  | nil => rfl
  | cons a t ih =>
    simp only [List.map_cons, h a (by simp), ih (fun x hx => h x (List.mem_cons_of_mem _ hx))]

/-- The fully applied form of `enqueue`. -/
theorem MpscQueue.enqueue_eq {T : Type} (q : MpscQueue T) (v : T) :
    q.enqueue v =
      { heap := setNext ((q.freshAddr, ⟨v, none⟩) :: q.heap) q.tail (some q.freshAddr),
        head := q.head, tail := q.freshAddr, freshAddr := q.freshAddr + 1 } := rfl

theorem setNext_cons_ne {T : Type} (h : List (Nat × Node T)) {n t : Nat} (nd : Node T)
    (nxt : Option Nat) (hnt : n ≠ t) :
    setNext ((n, nd) :: h) t nxt = (n, nd) :: setNext h t nxt := by
  simp [setNext, hnt]

theorem addrs_ne_nil {T : Type} {q : MpscQueue T} {addrs : List Nat}
    (h : QueueInv q addrs) : addrs ≠ [] := by
  intro hh
  have := h.chain
  rw [hh] at this
  simp [chainB] at this

/-- `enqueue` preserves the representation invariant, appending the fresh
address to the chain. -/
theorem enqueue_QueueInv {T : Type} {q : MpscQueue T} {addrs : List Nat}
    (h : QueueInv q addrs) (v : T) :
    QueueInv (q.enqueue v) (addrs ++ [q.freshAddr]) := by
  have htail_mem : q.tail ∈ addrs := mem_of_getLastSome h.tailLast
  have htf : q.freshAddr ∉ addrs := fun hm => absurd (h.freshBound _ hm) (lt_irrefl _)
  have hne : q.freshAddr ≠ q.tail := fun hh => htf (hh ▸ htail_mem)
  have hheap : (q.enqueue v).heap
      = (q.freshAddr, (⟨v, none⟩ : Node T)) :: setNext q.heap q.tail (some q.freshAddr) := by
    rw [MpscQueue.enqueue_eq]
    exact setNext_cons_ne _ _ _ hne
  refine ⟨?_, ?_, ?_, ?_, ?_⟩
  · show chainB (q.enqueue v).heap (q.enqueue v).head (addrs ++ [q.freshAddr]) = true
    rw [hheap]
    exact chainB_snoc h.chain h.tailLast h.nodup htf
  · refine List.Nodup.append h.nodup (List.nodup_singleton _) ?_
    intro x hx hx2
    simp only [List.mem_singleton] at hx2
    exact htf (hx2 ▸ hx)
  · rw [hheap]
    simp only [List.map_cons, keys_setNext]
    exact ((h.keys.cons q.freshAddr).trans (List.perm_append_singleton _ _).symm)
  · show (addrs ++ [q.freshAddr]).getLast? = some (q.enqueue v).tail
    rw [MpscQueue.enqueue_eq]
    exact List.getLast?_concat _
  · intro x hx
    show x < (q.enqueue v).freshAddr
    rw [MpscQueue.enqueue_eq]
    rcases List.mem_append.mp hx with hx1 | hx2
    · exact Nat.lt_succ_of_lt (h.freshBound x hx1)
    · simp only [List.mem_singleton] at hx2
      subst hx2
      exact Nat.lt_succ_self _

/-- `enqueue` appends exactly its argument to the queue's abstract
contents: an enqueue always succeeds. -/
theorem enqueue_vals {T : Type} [Inhabited T] {q : MpscQueue T} {addrs : List Nat}
    (h : QueueInv q addrs) (v : T) :
    queueVals (q.enqueue v) (addrs ++ [q.freshAddr]) = queueVals q addrs ++ [v] := by
  have htf : q.freshAddr ∉ addrs := fun hm => absurd (h.freshBound _ hm) (lt_irrefl _)
  have htail_mem : q.tail ∈ addrs := mem_of_getLastSome h.tailLast
  have hne : q.freshAddr ≠ q.tail := fun hh => htf (hh ▸ htail_mem)
  have hheap : (q.enqueue v).heap
      = (q.freshAddr, (⟨v, none⟩ : Node T)) :: setNext q.heap q.tail (some q.freshAddr) := by
    rw [MpscQueue.enqueue_eq]
    exact setNext_cons_ne _ _ _ hne
  obtain ⟨a0, rest, rfl⟩ : ∃ a0 rest, addrs = a0 :: rest := by
    cases addrs with
    | nil => exact absurd rfl (addrs_ne_nil h)
    | cons a0 rest => exact ⟨a0, rest, rfl⟩
  unfold queueVals
  simp only [List.cons_append, List.drop_succ_cons, List.drop_zero, List.map_append,
    List.map_cons, List.map_nil]
  rw [hheap]
  congr 1
  · refine map_congr_mem (fun x hx => ?_)
    have hxf : x ≠ q.freshAddr := fun hh => htf (hh ▸ List.mem_cons_of_mem _ hx)
    rw [dataAt_cons_ne _ _ hxf, dataAt_setNext]
  · simp [dataAt, List.lookup]

/-- On a chain with only the sentinel, `dequeue` reports empty, as does
`empty`. -/
theorem dequeue_none_of_single {T : Type} {q : MpscQueue T} {s : Nat}
    (h : QueueInv q [s]) : q.dequeue = none ∧ q.empty = true := by
  have hc := h.chain
  simp only [chainB, Bool.and_eq_true, beq_iff_eq] at hc
  obtain ⟨_, hnx⟩ := hc
  cases hl : q.heap.lookup q.head with
  | none => rw [hl] at hnx; simp at hnx
  | some n =>
    rw [hl] at hnx
    simp only [Option.map_some', Option.some.injEq] at hnx
    constructor
    · unfold MpscQueue.dequeue
      simp [hl, hnx]
    · unfold MpscQueue.empty
      simp [hl, hnx]

/-- On a chain with at least one event past the sentinel, `dequeue`
succeeds, returns the payload of the sentinel's successor, frees the
sentinel and makes the successor the new sentinel; the invariant carries
over to the shortened chain. -/
theorem dequeue_some_of_cons {T : Type} [Inhabited T] {q : MpscQueue T} {s b : Nat}
    {rest : List Nat} (h : QueueInv q (s :: b :: rest)) :
    q.dequeue = some (dataAt q.heap b, { q with heap := eraseKey q.heap s, head := b }) ∧
    QueueInv { q with heap := eraseKey q.heap s, head := b } (b :: rest) := by
  have hc := h.chain
  simp only [chainB, Bool.and_eq_true, beq_iff_eq] at hc
  obtain ⟨⟨hhd, hnx⟩, hrest⟩ := hc
  have hrestB : chainB q.heap b (b :: rest) = true := by
    simpa [chainB, Bool.and_eq_true] using hrest
  have hsnot : s ∉ b :: rest := (List.nodup_cons.mp h.nodup).1
  have hbsome := chainB_lookup_isSome hrestB b (by simp)
  cases hlb : q.heap.lookup b with
  | none => rw [hlb] at hbsome; simp at hbsome
  | some nb =>
    cases hls : q.heap.lookup q.head with
    | none => rw [hls] at hnx; simp at hnx
    | some hn =>
      rw [hls] at hnx
      simp only [Option.map_some', Option.some.injEq] at hnx
      constructor
      · unfold MpscQueue.dequeue
        simp only [hls, hnx, hlb]
        have hv : dataAt q.heap b = nb.data := by simp [dataAt, hlb]
        rw [hv, hhd]
      · refine ⟨?_, (List.nodup_cons.mp h.nodup).2, ?_, ?_, ?_⟩
        · show chainB (eraseKey q.heap s) b (b :: rest) = true
          exact chainB_erase hrestB hsnot
        · show ((eraseKey q.heap s).map Prod.fst).Perm (b :: rest)
          rw [keys_eraseKey]
          have hperm := h.keys.filter (fun k => k != s)
          have hrhs : (s :: b :: rest).filter (fun k => k != s) = b :: rest := by
            rw [List.filter_cons]
            have : (s != s) = false := by simp
            rw [this]
            simp only [Bool.false_eq_true, if_false]
            refine List.filter_eq_self.mpr (fun x hx => ?_)
            simp only [bne_iff_ne, ne_eq]
            exact fun hh => hsnot (hh ▸ hx)
          rw [hrhs] at hperm
          exact hperm
        · show (b :: rest).getLast? = some q.tail
          have := h.tailLast
          rwa [List.getLast?_cons_cons] at this
        · intro x hx
          exact h.freshBound x (List.mem_cons_of_mem _ hx)

theorem drainList_eq_none {T : Type} {q : MpscQueue T} (h : q.dequeue = none) :
    q.drainList = ([], q) := by
  conv_lhs => unfold MpscQueue.drainList
  split
  next => rfl
  next s heq => rw [h] at heq; exact absurd heq (by simp)

theorem drainList_eq_some {T : Type} {q : MpscQueue T} {v : T} {q' : MpscQueue T}
    (h : q.dequeue = some (v, q')) :
    q.drainList = (v :: q'.drainList.1, q'.drainList.2) := by
  conv_lhs => unfold MpscQueue.drainList
  split
  next heq => rw [h] at heq; exact absurd heq (by simp)
  next s heq =>
    rw [h] at heq
    injection heq with h2
    subst h2
    rfl

/-- The destructor's drain loop on a well-formed queue: it dequeues (and
discards) exactly the queue's abstract contents, in order, and ends in a
state holding only the final sentinel — the node that was the tail. -/
theorem drainList_spec {T : Type} [Inhabited T] :
    ∀ {addrs : List Nat} {q : MpscQueue T}, QueueInv q addrs →
      (q.drainList).1 = queueVals q addrs ∧
      QueueInv (q.drainList).2 [q.tail] ∧ (q.drainList).2.tail = q.tail := by
  intro addrs
  induction addrs with
  | nil => intro q h; exact absurd rfl (addrs_ne_nil h)
  | cons s rest ih =>
    intro q h
    cases rest with
    | nil =>
      rw [drainList_eq_none (dequeue_none_of_single h).1]
      have hts : s = q.tail := by
        have := h.tailLast
        simp only [List.getLast?_singleton, Option.some.injEq] at this
        exact this
      subst hts
      exact ⟨rfl, h, rfl⟩
    | cons b rest2 =>
      obtain ⟨hdq, hinv⟩ := dequeue_some_of_cons h
      rw [drainList_eq_some hdq]
      obtain ⟨ih1, ih2, ih3⟩ := ih hinv
      have hsnot : s ∉ b :: rest2 := (List.nodup_cons.mp h.nodup).1
      refine ⟨?_, ih2, ih3⟩
      simp only [ih1]
      unfold queueVals
      simp only [List.drop_succ_cons, List.drop_zero, List.map_cons]
      congr 1
      refine map_congr_mem (fun x hx => ?_)
      exact dataAt_eraseKey_ne _ (fun hh => hsnot (hh ▸ List.mem_cons_of_mem _ hx))

/-- After the drain, the heap holds exactly one node, and it is the final
sentinel `_head` (which equals `_tail`); the destructor then frees it,
leaving no live node at all. -/
theorem destruct_spec {T : Type} [Inhabited T] {q : MpscQueue T} {addrs : List Nat}
    (h : QueueInv q addrs) :
    (q.drainList).2.heap.length = 1 ∧ (q.drainList).2.head = q.tail ∧
    (q.destruct).heap = [] := by
  obtain ⟨_, hinv, htail⟩ := drainList_spec h
  have hkeys := hinv.keys
  have hlen : (q.drainList).2.heap.length = 1 := by
    have := hkeys.length_eq
    simpa using this
  have hhd : (q.drainList).2.head = q.tail := by
    have := chainB_head hinv.chain
    simp only [List.head?_cons, Option.some.injEq] at this
    exact this.symm
  refine ⟨hlen, hhd, ?_⟩
  show eraseKey (q.drainList).2.heap (q.drainList).2.head = []
  have hkeys2 : ((eraseKey (q.drainList).2.heap (q.drainList).2.head).map Prod.fst).Perm [] := by
    rw [keys_eraseKey, hhd]
    have hperm := hkeys.filter (fun k => k != q.tail)
    have : ([q.tail].filter fun k => k != q.tail) = [] := by simp
    rw [this] at hperm
    exact hperm
  have hnil := List.Perm.eq_nil hkeys2
  exact List.map_eq_nil_iff.mp hnil

/-- C2: a freshly constructed queue reports empty; after exactly one
`enqueue(v)` followed by one `dequeue`, the dequeue succeeds and yields
`v`, and the queue reports empty again (sequential, single-thread
interpretation). -/
theorem queue_enqueue_dequeue_roundtrip (T : Type) [Inhabited T] (v : T) :
    (MpscQueue.new T).empty = true ∧
    ∃ q', ((MpscQueue.new T).enqueue v).dequeue = some (v, q') ∧ q'.empty = true :=
  ⟨rfl, ⟨⟨[(1, ⟨v, none⟩)], 1, 1, 2⟩, rfl, rfl⟩⟩

/-- C5: every enqueue proceeds in exactly two steps — it first atomically
exchanges the shared tail pointer to the freshly allocated node, obtaining
the previous tail in that same step, and only then publishes the new node
by storing it into the previous tail's link field: in the intermediate
state the new node is already the tail but the previous tail's link is
still null. -/
theorem enqueue_exchange_then_publish {T : Type} (q : MpscQueue T) (v : T)
    (addrs : List Nat) (h : QueueInv q addrs) :
    (q.enqueueStep1 v).1 = q.tail ∧
    (q.enqueueStep1 v).2.tail = q.freshAddr ∧
    ((q.enqueueStep1 v).2.heap.lookup q.freshAddr) = some ⟨v, none⟩ ∧
    ((q.enqueueStep1 v).2.heap.lookup q.tail).map Node.next = some none ∧
    q.enqueue v = (q.enqueueStep1 v).2.publishLink (q.enqueueStep1 v).1 (q.enqueueStep1 v).2.tail ∧
    ((q.enqueue v).heap.lookup q.tail).map Node.next = some (some q.freshAddr) := by
  have htail_mem : q.tail ∈ addrs := mem_of_getLastSome h.tailLast
  have htf : q.freshAddr ∉ addrs := fun hm => absurd (h.freshBound _ hm) (lt_irrefl _)
  have hne : q.freshAddr ≠ q.tail := fun hh => htf (hh ▸ htail_mem)
  have hlast := chainB_last_next h.chain h.tailLast
  refine ⟨rfl, rfl, ?_, ?_, rfl, ?_⟩
  · show (List.lookup q.freshAddr ((q.freshAddr, (⟨v, none⟩ : Node T)) :: q.heap)) = _
    simp [List.lookup]
  · show (List.lookup q.tail ((q.freshAddr, (⟨v, none⟩ : Node T)) :: q.heap)).map
        Node.next = some none
    have hf : (q.tail == q.freshAddr) = false := by simp [hne.symm]
    simp only [List.lookup, hf]
    exact hlast
  · have hheap : (q.enqueue v).heap
        = (q.freshAddr, (⟨v, none⟩ : Node T)) :: setNext q.heap q.tail (some q.freshAddr) := by
      rw [MpscQueue.enqueue_eq]
      exact setNext_cons_ne _ _ _ hne
    rw [hheap]
    have hf : (q.tail == q.freshAddr) = false := by simp [hne.symm]
    simp only [List.lookup, hf, lookup_setNext, if_pos rfl]
    cases hl : q.heap.lookup q.tail with
    | none => rw [hl] at hlast; simp at hlast
    | some n => simp

/-- Closed instance of `enqueue_exchange_then_publish` at a concrete queue. -/
theorem enqueue_exchange_then_publish_witness :
    ((MpscQueue.new Nat).enqueueStep1 7).1 = (MpscQueue.new Nat).tail :=
  (enqueue_exchange_then_publish (MpscQueue.new Nat) 7 [0]
    ⟨by decide, by decide, by decide, by decide, by decide⟩).1

/-- C8: the destructor terminates on every queue state (its drain loop is
a total function of the state); on a well-formed queue the drain loop
dequeues and discards every remaining event, after the drain exactly one
node — the final sentinel — remains and is then freed, and `enqueue` is
never rejected for capacity: on a queue of any size it succeeds and
appends its event. -/
theorem queue_destructor_drains_and_frees {T : Type} [Inhabited T] {q : MpscQueue T}
    {addrs : List Nat} (h : QueueInv q addrs) (v : T) :
    (q.drainList).1 = queueVals q addrs ∧
    (q.drainList).2.heap.length = 1 ∧
    (q.drainList).2.head = q.tail ∧
    (q.destruct).heap = [] ∧
    queueVals (q.enqueue v) (addrs ++ [q.freshAddr]) = queueVals q addrs ++ [v] := by
  obtain ⟨h1, _, _⟩ := drainList_spec h
  obtain ⟨h2, h3, h4⟩ := destruct_spec h
  exact ⟨h1, h2, h3, h4, enqueue_vals h v⟩

/-- Closed instance of `queue_destructor_drains_and_frees` at a concrete
one-event queue. -/
theorem queue_destructor_drains_and_frees_witness :
    (((MpscQueue.new Nat).enqueue 3).drainList).1 =
      queueVals ((MpscQueue.new Nat).enqueue 3) [0, 1] :=
  (@queue_destructor_drains_and_frees Nat _ ((MpscQueue.new Nat).enqueue 3) [0, 1]
    ⟨by decide, by decide, by decide, by decide, by decide⟩ 9).1

/-- The `LogEvent` struct of the source.  `time_str` and `thread_id` are
empty when the corresponding recording feature is disabled. -/
structure LogEvent where
  priority : LogPriority
  priority_str : String
  message : String
  time_str : String
  thread_id : String
deriving DecidableEq, Repr

instance : Inhabited LogEvent := ⟨⟨.TRACE, "", "", "", ""⟩⟩

/-- One registered appender (sink), observed through the sequence of
formatted strings its `log` member received, oldest first. -/
structure Sink where
  received : List String
deriving DecidableEq, Repr

/-- The observable side effects one source operation performs: how many
`std::vformat` renderings, timestamp captures, thread-id captures, queue
enqueues, `_queue_counter` increments, `notify_one` wakes and appender
`log` calls it executed. -/
structure Effects where
  renders : Nat
  timeCaptures : Nat
  tidCaptures : Nat
  enqueues : Nat
  counterIncs : Nat
  wakes : Nat
  sinkCalls : Nat
deriving DecidableEq, Repr

/-- No observable side effect at all. -/
def Effects.zero : Effects := ⟨0, 0, 0, 0, 0, 0, 0⟩

/-- The ambient inputs a call could capture: the current clock rendering
(`get_current_time_string()`) and the calling thread's id rendering. -/
structure CallEnv where
  now : String
  tid : String
deriving DecidableEq, Repr

/-- The member fields of the `Logger` class (underscores dropped). -/
structure Logger where
  priority : LogPriority
  mode : LogMode
  enable_time_recording : Bool
  enable_thread_id : Bool
  appenders : List Sink
  queue : MpscQueue LogEvent
  queue_counter : Int
deriving DecidableEq, Repr

/-- The `Logger` constructor's member-initializer state: threshold
`TRACE`, `SYNC` mode, time and thread-id recording off, no appenders,
fresh queue, zero pending-count. -/
def Logger.initState : Logger :=
  { priority := .TRACE, mode := .SYNC, enable_time_recording := false,
    enable_thread_id := false, appenders := [], queue := MpscQueue.new LogEvent,
    queue_counter := 0 }

-- The ANSI color-code string constants of the source.
namespace colors

def RESET : String := "\x1b[0m"

def GREY : String := "\x1b[90m"

def CYAN : String := "\x1b[36m"

def RED : String := "\x1b[31m"

def GREEN : String := "\x1b[32m"

def YELLOW : String := "\x1b[33m"

def BLUE : String := "\x1b[34m"

def MAGENTA : String := "\x1b[35m"

end colors

/-- `Logger::get_color`. -/
def get_color : LogPriority → String
  | .FATAL => colors.MAGENTA
  | .ERROR => colors.RED
  | .WARN => colors.YELLOW
  | .INFO => colors.GREEN
  | .DEBUG => colors.BLUE
  | .TRACE => colors.GREY

/-- The format specifier of the priority column: left-aligned,
padded with spaces to width 5 (never truncated). -/
def padTo5 (s : String) : String :=
  s ++ String.mk (List.replicate (5 - s.length) ' ')

/-- The buffer `Logger::write_to_appenders` assembles from an event:
optional grey bracketed time, optional cyan bracketed thread id, colored
bracketed padded priority tag, then the message. -/
def formatEvent (event : LogEvent) : String :=
  (if event.time_str ≠ "" then
    colors.GREY ++ "[" ++ event.time_str ++ "]" ++ colors.RESET ++ " " else "") ++
  (if event.thread_id ≠ "" then
    colors.CYAN ++ "[" ++ event.thread_id ++ "]" ++ colors.RESET ++ " " else "") ++
  (get_color event.priority ++ "[" ++ padTo5 event.priority_str ++ "]" ++
    colors.RESET ++ " ") ++
  event.message

/-- `Logger::write_to_appenders`: assemble the buffer once, then hand the
same buffer to every registered appender in order (under the appender
lock).  Reports one sink call per registered appender. -/
def Logger.write_to_appenders (l : Logger) (event : LogEvent) : Logger × Effects :=
  let buffer := formatEvent event
  ({ l with appenders := l.appenders.map fun s => ⟨s.received ++ [buffer]⟩ },
   { Effects.zero with sinkCalls := l.appenders.length })

/-- The `LogEvent` `Logger::log` builds: timestamp and thread id are
captured only when the corresponding feature is enabled, else empty. -/
def Logger.buildEvent (l : Logger) (env : CallEnv) (pri_str : String)
    (msg_pri : LogPriority) (msg : String) : LogEvent :=
  { priority := msg_pri, priority_str := pri_str, message := msg,
    time_str := if l.enable_time_recording then env.now else "",
    thread_id := if l.enable_thread_id then env.tid else "" }

/-- `Logger::log`: capture time/thread id if enabled, build the event,
then either enqueue it, bump the pending-count and wake the worker
(`ASYNC`) or dispatch it synchronously to the appenders (`SYNC`). -/
def Logger.log (l : Logger) (env : CallEnv) (pri_str : String)
    (msg_pri : LogPriority) (msg : String) : Logger × Effects :=
  let event := l.buildEvent env pri_str msg_pri msg
  let eff0 : Effects :=
    { Effects.zero with
        timeCaptures := if l.enable_time_recording then 1 else 0,
        tidCaptures := if l.enable_thread_id then 1 else 0 }
  if l.mode = LogMode.ASYNC then
    ({ l with queue := l.queue.enqueue event, queue_counter := l.queue_counter + 1 },
     { eff0 with enqueues := 1, counterIncs := 1, wakes := 1 })
  else
    let r := l.write_to_appenders event
    (r.1, { eff0 with sinkCalls := r.2.sinkCalls })

/-- The body of the per-level `XX` macro: compare the threshold against
the call's level with the underlying `uint8_t` ordering; only when
`_priority <= level` render the message (`std::vformat`, counted as one
render) and forward to `log`, otherwise do nothing. `msg` is the string
the rendering would produce. -/
def Logger.leveled (l : Logger) (env : CallEnv) (pri_str : String)
    (pri : LogPriority) (msg : String) : Logger × Effects :=
  if l.priority.toNat ≤ pri.toNat then
    let r := l.log env pri_str pri msg
    (r.1, { r.2 with renders := r.2.renders + 1 })
  else
    (l, Effects.zero)

/-- `Logger::trace`, from `XX(trace, TRACE, TRACE)`. -/
def Logger.trace (l : Logger) (env : CallEnv) (msg : String) : Logger × Effects :=
  l.leveled env "TRACE" .TRACE msg

/-- `Logger::debug`, from `XX(debug, DEBUG, DEBUG)`. -/
def Logger.debug (l : Logger) (env : CallEnv) (msg : String) : Logger × Effects :=
  l.leveled env "DEBUG" .DEBUG msg

/-- `Logger::info`, from `XX(info, INFO, INFO)`. -/
def Logger.info (l : Logger) (env : CallEnv) (msg : String) : Logger × Effects :=
  l.leveled env "INFO" .INFO msg

/-- `Logger::warn`, from `XX(warn, WARN, WARN)`. -/
def Logger.warn (l : Logger) (env : CallEnv) (msg : String) : Logger × Effects :=
  l.leveled env "WARN" .WARN msg

/-- `Logger::error`, from `XX(error, ERROR, ERROR)`. -/
def Logger.error (l : Logger) (env : CallEnv) (msg : String) : Logger × Effects :=
  l.leveled env "ERROR" .ERROR msg

/-- `Logger::fatal`, from `XX(fatal, FATAL, FATAL)`. -/
def Logger.fatal (l : Logger) (env : CallEnv) (msg : String) : Logger × Effects :=
  l.leveled env "FATAL" .FATAL msg

theorem string_empty_append (s : String) : "" ++ s = s := by
  cases s
  rfl

/-- C1: a leveled call whose level is strictly below the current threshold
returns immediately with no observable effect: no rendering, no timestamp
or thread-id capture, no enqueue, no counter increment, no wake, no sink
call, and the Logger state is unchanged.  The six leveled calls are
exactly `leveled` at their respective tag and level. -/
theorem leveled_below_threshold_no_effect (l : Logger) (env : CallEnv)
    (pri : LogPriority) (tag msg : String) (h : pri.toNat < l.priority.toNat) :
    l.leveled env tag pri msg = (l, Effects.zero) ∧
    l.trace env msg = l.leveled env "TRACE" .TRACE msg ∧
    l.debug env msg = l.leveled env "DEBUG" .DEBUG msg ∧
    l.info env msg = l.leveled env "INFO" .INFO msg ∧
    l.warn env msg = l.leveled env "WARN" .WARN msg ∧
    l.error env msg = l.leveled env "ERROR" .ERROR msg ∧
    l.fatal env msg = l.leveled env "FATAL" .FATAL msg := by
  refine ⟨?_, rfl, rfl, rfl, rfl, rfl, rfl⟩
  unfold Logger.leveled
  rw [if_neg (Nat.not_le.mpr h)]

/-- Closed instance of `leveled_below_threshold_no_effect`: an `INFO`
call against an `ERROR` threshold does nothing. -/
theorem leveled_below_threshold_no_effect_witness :
    ({ Logger.initState with priority := .ERROR } : Logger).leveled ⟨"t", "i"⟩ "INFO"
        .INFO "m"
      = ({ Logger.initState with priority := .ERROR }, Effects.zero) :=
  (leveled_below_threshold_no_effect { Logger.initState with priority := .ERROR }
    ⟨"t", "i"⟩ .INFO "INFO" "m" (by decide)).1

/-- C9: a freshly constructed `Logger` has threshold `TRACE` (the lowest
level, so every leveled call passes the filter), `SYNC` (immediate)
delivery, and time/thread-id recording disabled, so by default any emit
renders and dispatches synchronously (no enqueue, queue untouched) and
the formatted line carries neither a timestamp nor a thread-id column. -/
theorem logger_default_state :
    Logger.initState.priority = LogPriority.TRACE ∧
    Logger.initState.mode = LogMode.SYNC ∧
    Logger.initState.enable_time_recording = false ∧
    Logger.initState.enable_thread_id = false ∧
    (∀ pri : LogPriority, Logger.initState.priority.toNat ≤ pri.toNat) ∧
    (∀ (env : CallEnv) (tag : String) (pri : LogPriority) (msg : String),
      (Logger.initState.buildEvent env tag pri msg).time_str = "" ∧
      (Logger.initState.buildEvent env tag pri msg).thread_id = "" ∧
      formatEvent (Logger.initState.buildEvent env tag pri msg) =
        get_color pri ++ "[" ++ padTo5 tag ++ "]" ++ colors.RESET ++ " " ++ msg ∧
      (Logger.initState.leveled env tag pri msg).2.enqueues = 0 ∧
      (Logger.initState.leveled env tag pri msg).2.renders = 1 ∧
      (Logger.initState.leveled env tag pri msg).1.queue = Logger.initState.queue) := by
  refine ⟨rfl, rfl, rfl, rfl, fun pri => Nat.zero_le _, fun env tag pri msg => ?_⟩
  have hpass : Logger.initState.priority.toNat ≤ pri.toNat := Nat.zero_le _
  refine ⟨rfl, rfl, ?_, ?_, ?_, ?_⟩
  · show formatEvent ⟨pri, tag, msg, "", ""⟩ = _
    unfold formatEvent
    simp only [ne_eq, not_true_eq_false, if_false, reduceIte]
    rw [string_empty_append, string_empty_append]
  · unfold Logger.leveled
    rw [if_pos hpass]
    rfl
  · unfold Logger.leveled
    rw [if_pos hpass]
    rfl
  · unfold Logger.leveled
    rw [if_pos hpass]
    rfl

/-- C10: in `SYNC` (immediate) mode, `log` leaves the queue and the
pending-count unchanged and performs no enqueue, no counter increment and
no wake; only the appenders' outputs change — every registered sink
receives the one formatted line. -/
theorem sync_emit_frame (l : Logger) (env : CallEnv) (tag msg : String)
    (pri : LogPriority) (h : l.mode = LogMode.SYNC) :
    (l.log env tag pri msg).1.queue = l.queue ∧
    (l.log env tag pri msg).1.queue_counter = l.queue_counter ∧
    (l.log env tag pri msg).1.priority = l.priority ∧
    (l.log env tag pri msg).1.mode = l.mode ∧
    (l.log env tag pri msg).1.enable_time_recording = l.enable_time_recording ∧
    (l.log env tag pri msg).1.enable_thread_id = l.enable_thread_id ∧
    (l.log env tag pri msg).2.enqueues = 0 ∧
    (l.log env tag pri msg).2.counterIncs = 0 ∧
    (l.log env tag pri msg).2.wakes = 0 ∧
    (l.log env tag pri msg).1.appenders =
      l.appenders.map
        (fun s => ⟨s.received ++ [formatEvent (l.buildEvent env tag pri msg)]⟩) := by
  have hmode : ¬l.mode = LogMode.ASYNC := by rw [h]; intro hh; cases hh
  unfold Logger.log
  rw [if_neg hmode]
  exact ⟨rfl, rfl, rfl, rfl, rfl, rfl, rfl, rfl, rfl, rfl⟩

/-- Closed instance of `sync_emit_frame` at the default logger. -/
theorem sync_emit_frame_witness :
    (Logger.initState.log ⟨"t", "i"⟩ "INFO" .INFO "m").1.queue = Logger.initState.queue :=
  (sync_emit_frame Logger.initState ⟨"t", "i"⟩ "INFO" "m" .INFO rfl).1

/-- C6: formatting is a deterministic function (`formatEvent`) of the
event's fields; one dispatch computes exactly one formatted line,
independent of the number of sinks, and hands that identical line to
every sink; dispatching the same event twice appends the byte-identical
line both times. -/
theorem format_once_identical_to_all_sinks (l : Logger) (event : LogEvent) :
    ∃ line, line = formatEvent event ∧
      (l.write_to_appenders event).1.appenders =
        l.appenders.map (fun s => ⟨s.received ++ [line]⟩) ∧
      (l.write_to_appenders event).2.sinkCalls = l.appenders.length ∧
      ((l.write_to_appenders event).1.write_to_appenders event).1.appenders =
        l.appenders.map (fun s => ⟨s.received ++ [line, line]⟩) := by
  refine ⟨formatEvent event, rfl, rfl, rfl, ?_⟩
  show (l.appenders.map fun s => (⟨s.received ++ [formatEvent event]⟩ : Sink)).map
      (fun s => (⟨s.received ++ [formatEvent event]⟩ : Sink)) = _
  rw [List.map_map]
  refine map_congr_mem (fun s _ => ?_)
  simp [Function.comp, List.append_assoc]

/-- Parameter bytes `[0-?]` (0x30–0x3F) of a CSI sequence. -/
def isParam (c : Char) : Bool := 0x30 ≤ c.toNat && c.toNat ≤ 0x3F

/-- Intermediate bytes (space to `/`, 0x20–0x2F) of a CSI sequence. -/
def isInter (c : Char) : Bool := 0x20 ≤ c.toNat && c.toNat ≤ 0x2F

/-- Final bytes `[@-~]` (0x40–0x7E) of a CSI sequence. -/
def isFinal (c : Char) : Bool := 0x40 ≤ c.toNat && c.toNat ≤ 0x7E

/-- The regex's first alternative `[@-Z\\-_]` (0x40–0x5A or 0x5C–0x5F):
a two-character escape; `[` (0x5B) is deliberately excluded so a CSI
sequence falls to the second alternative. -/
def isClass1 (c : Char) : Bool :=
  (0x40 ≤ c.toNat && c.toNat ≤ 0x5A) || (0x5C ≤ c.toNat && c.toNat ≤ 0x5F)

/-- The second alternative after `ESC [`: parameter bytes, intermediate
bytes, then exactly one final byte.  Returns the rest of the text when it
matches. -/
def csiTail (l : List Char) : Option (List Char) :=
  match (l.dropWhile isParam).dropWhile isInter with
  | [] => none
  | f :: rest => if isFinal f then some rest else none

/-- A match of the regex's body right after an `ESC`: either one
character of the first class, or a CSI sequence. -/
def escMatch (l : List Char) : Option (List Char) :=
  match l with
  | [] => none
  | d :: rest =>
    if isClass1 d then some rest
    else if d = '[' then csiTail rest
    else none

theorem length_dropWhile_le (p : Char → Bool) (l : List Char) :
    (l.dropWhile p).length ≤ l.length := by
  induction l with
  | nil => simp
  | cons a t ih =>
    by_cases h : p a
    · rw [List.dropWhile_cons_of_pos h]
      exact Nat.le_succ_of_le ih
    · rw [List.dropWhile_cons_of_neg h]

theorem csiTail_length {l r : List Char} (h : csiTail l = some r) : r.length < l.length := by
  unfold csiTail at h
  cases hd : (l.dropWhile isParam).dropWhile isInter with
  | nil => rw [hd] at h; cases h
  | cons f rest =>
    rw [hd] at h
    have h2 : (if isFinal f = true then some rest else none) = some r := h
    by_cases hf : isFinal f
    · rw [if_pos hf] at h2
      injection h2 with h3
      subst h3
      have h1 : (f :: rest).length ≤ l.length := by
        rw [← hd]
        exact le_trans (length_dropWhile_le _ _) (length_dropWhile_le _ _)
      simpa using Nat.lt_of_lt_of_le (Nat.lt_succ_self _) h1
    · rw [if_neg hf] at h2
      cases h2

theorem escMatch_length {l r : List Char} (h : escMatch l = some r) : r.length < l.length := by
  unfold escMatch at h
  cases l with
  | nil => cases h
  | cons d rest =>
    have h0 : (if isClass1 d = true then some rest
        else if d = '[' then csiTail rest else none) = some r := h
    by_cases h1 : isClass1 d
    · rw [if_pos h1] at h0
      injection h0 with h2
      subst h2
      simp
    · rw [if_neg h1] at h0
      by_cases h2 : d = '['
      · rw [if_pos h2] at h0
        exact Nat.lt_succ_of_lt (csiTail_length h0)
      · rw [if_neg h2] at h0
        cases h0

/-- `FileAppender::strip_ansi`: scan left to right deleting every match
of the source's ANSI regex — an ESC followed by either one byte of the
first character class or a full CSI sequence; at a position where the
regex does not match, the character is kept. -/
def stripAnsi : List Char → List Char
  | [] => []
  | c :: rest =>
    if c = '\x1b' then
      match hm : escMatch rest with
      | some rest2 => stripAnsi rest2
      | none => c :: stripAnsi rest
    else c :: stripAnsi rest
termination_by l => l.length
decreasing_by
  · exact Nat.lt_succ_of_lt (escMatch_length hm)
  · exact Nat.lt_succ_self _
  · exact Nat.lt_succ_self _

/-- String-level wrapper of `strip_ansi`. -/
def strip_ansi (s : String) : String := String.mk (stripAnsi s.data)

/-- The state of a `FileAppender`: whether the stream opened, and the
bytes written so far. -/
structure FileAppender where
  is_open : Bool
  contents : String
deriving DecidableEq, Repr

/-- `FileAppender::log`: when the stream is open, strip ANSI codes from
the formatted message and write it followed by one newline. -/
def FileAppender.log (fa : FileAppender) (formatted_message : String) : FileAppender :=
  if fa.is_open then
    { fa with contents := fa.contents ++ strip_ansi formatted_message ++ "\n" }
  else fa

theorem stripAnsi_nil : stripAnsi [] = [] := by
  unfold stripAnsi
  rfl

theorem stripAnsi_cons_esc_some {rest rest2 : List Char} (h : escMatch rest = some rest2) :
    stripAnsi ('\x1b' :: rest) = stripAnsi rest2 := by
  conv_lhs => unfold stripAnsi
  rw [if_pos rfl]
  split
  next r2 heq =>
    rw [h] at heq
    injection heq with h2
    rw [h2]
  next heq => rw [h] at heq; cases heq

theorem stripAnsi_cons_esc_none {rest : List Char} (h : escMatch rest = none) :
    stripAnsi ('\x1b' :: rest) = '\x1b' :: stripAnsi rest := by
  conv_lhs => unfold stripAnsi
  rw [if_pos rfl]
  split
  next r2 heq => rw [h] at heq; cases heq
  next heq => rfl

theorem stripAnsi_cons_ne {c : Char} (hc : ¬c = '\x1b') (rest : List Char) :
    stripAnsi (c :: rest) = c :: stripAnsi rest := by
  conv_lhs => unfold stripAnsi
  rw [if_neg hc]

/-- Escape-free text passes through `strip_ansi` unchanged (prefix form). -/
theorem stripAnsi_append_noEsc {l1 : List Char} (h : ∀ c ∈ l1, c ≠ '\x1b')
    (l2 : List Char) : stripAnsi (l1 ++ l2) = l1 ++ stripAnsi l2 := by
  induction l1 with
  | nil => simp
  | cons c t ih =>
    rw [List.cons_append, stripAnsi_cons_ne (h c (by simp)),
      ih (fun x hx => h x (List.mem_cons_of_mem _ hx)), List.cons_append]

theorem dropWhile_append_of_all {p : Char → Bool} {l1 : List Char}
    (h : ∀ c ∈ l1, p c = true) (l2 : List Char) :
    (l1 ++ l2).dropWhile p = l2.dropWhile p := by
  induction l1 with
  | nil => rfl
  | cons c t ih =>
    rw [List.cons_append, List.dropWhile_cons_of_pos (h c (by simp)),
      ih (fun x hx => h x (List.mem_cons_of_mem _ hx))]

/-- A CSI sequence (`ESC [`, parameters, final byte) is deleted whole. -/
theorem stripAnsi_csi (ps : List Char) (hps : ∀ c ∈ ps, isParam c = true)
    (f : Char) (hf : isFinal f = true) (hfp : isParam f = false) (hfi : isInter f = false)
    (l : List Char) :
    stripAnsi ('\x1b' :: '[' :: (ps ++ f :: l)) = stripAnsi l := by
  apply stripAnsi_cons_esc_some
  show (if isClass1 '[' = true then some (ps ++ f :: l)
    else if '[' = '[' then csiTail (ps ++ f :: l) else none) = some l
  rw [if_neg (by decide), if_pos rfl]
  unfold csiTail
  rw [dropWhile_append_of_all hps, List.dropWhile_cons_of_neg (by simp [hfp]),
    List.dropWhile_cons_of_neg (by simp [hfi])]
  simp [hf]

theorem stripAnsi_code2 (d1 d2 : Char) (h1 : isParam d1 = true) (h2 : isParam d2 = true)
    (l : List Char) : stripAnsi ('\x1b' :: '[' :: d1 :: d2 :: 'm' :: l) = stripAnsi l := by
  have hps : ∀ c ∈ [d1, d2], isParam c = true := by
    intro c hc
    simp only [List.mem_cons, List.not_mem_nil, or_false] at hc
    rcases hc with rfl | rfl
    · exact h1
    · exact h2
  have hmain := stripAnsi_csi [d1, d2] hps 'm'
    (by decide) (by decide) (by decide) l
  simpa using hmain

theorem stripAnsi_code1 (d1 : Char) (h1 : isParam d1 = true)
    (l : List Char) : stripAnsi ('\x1b' :: '[' :: d1 :: 'm' :: l) = stripAnsi l := by
  have hps : ∀ c ∈ [d1], isParam c = true := by
    intro c hc
    simp only [List.mem_singleton] at hc
    subst hc
    exact h1
  have hmain := stripAnsi_csi [d1] hps 'm'
    (by decide) (by decide) (by decide) l
  simpa using hmain

theorem stripAnsi_reset (l : List Char) :
    stripAnsi (colors.RESET.data ++ l) = stripAnsi l :=
  stripAnsi_code1 '0' (by decide) l

theorem stripAnsi_grey (l : List Char) :
    stripAnsi (colors.GREY.data ++ l) = stripAnsi l :=
  stripAnsi_code2 '9' '0' (by decide) (by decide) l

theorem stripAnsi_cyan (l : List Char) :
    stripAnsi (colors.CYAN.data ++ l) = stripAnsi l :=
  stripAnsi_code2 '3' '6' (by decide) (by decide) l

theorem stripAnsi_get_color (pri : LogPriority) (l : List Char) :
    stripAnsi ((get_color pri).data ++ l) = stripAnsi l := by
  cases pri
  · exact stripAnsi_code2 '9' '0' (by decide) (by decide) l
  · exact stripAnsi_code2 '3' '4' (by decide) (by decide) l
  · exact stripAnsi_code2 '3' '2' (by decide) (by decide) l
  · exact stripAnsi_code2 '3' '3' (by decide) (by decide) l
  · exact stripAnsi_code2 '3' '1' (by decide) (by decide) l
  · exact stripAnsi_code2 '3' '5' (by decide) (by decide) l

theorem data_lbracket : ("[" : String).data = ['['] := rfl

theorem data_rbracket : ("]" : String).data = [']'] := rfl

theorem data_space : (" " : String).data = [' '] := rfl

theorem data_empty : ("" : String).data = [] := rfl

theorem stripAnsi_noEsc {l : List Char} (h : ∀ c ∈ l, c ≠ '\x1b') : stripAnsi l = l := by
  have hmain := stripAnsi_append_noEsc h []
  simpa [stripAnsi_nil] using hmain

theorem padTo5_noEsc {s : String} (hs : ∀ c ∈ s.data, c ≠ '\x1b') :
    ∀ c ∈ (padTo5 s).data, c ≠ '\x1b' := by
  intro c hc
  unfold padTo5 at hc
  rw [String.data_append] at hc
  rcases List.mem_append.mp hc with h | h
  · exact hs c h
  · have hsp : c = ' ' := List.eq_of_mem_replicate h
    subst hsp
    decide

/-- One colored bracketed column of the buffer loses exactly its color
codes under `strip_ansi`. -/
theorem stripAnsi_column (color : String)
    (hcolor : ∀ l, stripAnsi (color.data ++ l) = stripAnsi l)
    (s : String) (hs : ∀ c ∈ s.data, c ≠ '\x1b') (l : List Char) :
    stripAnsi ((color ++ "[" ++ s ++ "]" ++ colors.RESET ++ " ").data ++ l)
      = ("[" ++ s ++ "]" ++ " ").data ++ stripAnsi l := by
  have hdata : (color ++ "[" ++ s ++ "]" ++ colors.RESET ++ " ").data ++ l
      = color.data ++ ('[' :: (s.data ++ (']' :: (colors.RESET.data ++ (' ' :: l))))) := by
    simp [String.data_append, data_lbracket, data_rbracket, data_space, List.append_assoc]
  rw [hdata, hcolor, stripAnsi_cons_ne (by decide), stripAnsi_append_noEsc hs,
    stripAnsi_cons_ne (by decide), stripAnsi_reset, stripAnsi_cons_ne (by decide)]
  simp [String.data_append, data_lbracket, data_rbracket, data_space, List.append_assoc]

theorem data_mk (l : List Char) : (String.mk l).data = l := rfl

/-- One complete ANSI escape sequence, exactly as the source's regex
matches it without intermediate bytes: a two-byte Fe escape
(`ESC` + first character class), or `ESC [`, parameter bytes and one
final byte.  Every ANSI color (SGR) code — `ESC [ … m` — has the second
form. -/
inductive IsEscSeq : List Char → Prop where
  | fe {d : Char} : isClass1 d = true → IsEscSeq ['\x1b', d]
  | csi {ps : List Char} {f : Char} : (∀ c ∈ ps, isParam c = true) →
      isFinal f = true → isParam f = false → isInter f = false →
      IsEscSeq ('\x1b' :: '[' :: (ps ++ [f]))

/-- A complete escape sequence is deleted whole wherever it stands. -/
theorem stripAnsi_escSeq {e : List Char} (h : IsEscSeq e) (l : List Char) :
    stripAnsi (e ++ l) = stripAnsi l := by
  cases h with
  | fe hd =>
    apply stripAnsi_cons_esc_some
    show (if isClass1 _ = true then some l
      else if _ = '[' then csiTail l else none) = some l
    rw [if_pos hd]
  | csi hps hf hfp hfi =>
    rename_i ps f
    have hre : (('\x1b' :: '[' :: (ps ++ [f])) ++ l) = '\x1b' :: '[' :: (ps ++ (f :: l)) := by
      simp [List.append_assoc]
    rw [hre]
    exact stripAnsi_csi ps hps f hf hfp hfi l

/-- `ColorText raw plain`: `raw` is text interleaving escape-free
characters with complete ANSI escape sequences (so in particular any text
whose color markup consists of whole color codes), and `plain` is `raw`
with the escape sequences removed. -/
inductive ColorText : List Char → List Char → Prop where
  | nil : ColorText [] []
  | chr {c : Char} {raw plain : List Char} : c ≠ '\x1b' →
      ColorText raw plain → ColorText (c :: raw) (c :: plain)
  | esc {e raw plain : List Char} : IsEscSeq e →
      ColorText raw plain → ColorText (e ++ raw) plain

/-- `strip_ansi` deletes exactly the escape sequences of such text and
keeps every other character, in order. -/
theorem stripAnsi_colorText {raw plain : List Char} (h : ColorText raw plain)
    (l : List Char) : stripAnsi (raw ++ l) = plain ++ stripAnsi l := by
  induction h with
  | nil => simp
  | chr hc _ ih =>
    rw [List.cons_append, stripAnsi_cons_ne hc, ih]
    rfl
  | esc he _ ih =>
    rw [List.append_assoc, stripAnsi_escSeq he]
    exact ih

/-- The markup-free rendering of such text has no escape byte at all. -/
theorem colorText_plain_noEsc {raw plain : List Char} (h : ColorText raw plain) :
    ∀ c ∈ plain, c ≠ '\x1b' := by
  induction h with
  | nil => intro c hc; cases hc
  | chr hc _ ih =>
    intro x hx
    rcases List.mem_cons.mp hx with rfl | hx2
    · exact hc
    · exact ih x hx2
  | esc _ _ ih => exact ih

/-- Escape-free text is trivially `ColorText` with itself. -/
theorem colorText_of_noEsc {l : List Char} (h : ∀ c ∈ l, c ≠ '\x1b') :
    ColorText l l := by
  induction l with
  | nil => exact ColorText.nil
  | cons c t ih =>
    exact ColorText.chr (h c (by simp)) (ih fun x hx => h x (List.mem_cons_of_mem _ hx))

/-- The persisted layout the spec describes for a file sink line: optional
bracketed timestamp, optional bracketed producer identity, bracketed
fixed-width level tag, then the message text with its color markup
removed (`plainMsg`). -/
def fileLine (event : LogEvent) (plainMsg : List Char) : String :=
  (if event.time_str ≠ "" then "[" ++ event.time_str ++ "]" ++ " " else "") ++
  (if event.thread_id ≠ "" then "[" ++ event.thread_id ++ "]" ++ " " else "") ++
  ("[" ++ padTo5 event.priority_str ++ "]" ++ " ") ++
  String.mk plainMsg

/-- Stripping the assembled color buffer yields exactly the plain layout:
the logger-generated columns (whose text carries no escape byte) lose
their decoration codes, and the message — which may itself interleave
complete color escape sequences — is reduced to its markup-free
rendering. -/
theorem stripAnsi_formatEvent (event : LogEvent) (plainMsg : List Char)
    (ht : ∀ c ∈ event.time_str.data, c ≠ '\x1b')
    (hd : ∀ c ∈ event.thread_id.data, c ≠ '\x1b')
    (hp : ∀ c ∈ event.priority_str.data, c ≠ '\x1b')
    (hm : ColorText event.message.data plainMsg) :
    stripAnsi (formatEvent event).data = (fileLine event plainMsg).data := by
  have hmsg : stripAnsi event.message.data = plainMsg := by
    have hmain := stripAnsi_colorText hm []
    simpa [stripAnsi_nil] using hmain
  unfold formatEvent fileLine
  have hsplit : ∀ a b c d : String, (a ++ b ++ c ++ d).data
      = a.data ++ (b.data ++ (c.data ++ d.data)) := by
    intro a b c d
    simp [String.data_append, List.append_assoc]
  have hnil : ("" : String).data = ([] : List Char) := rfl
  by_cases h1 : event.time_str ≠ "" <;> by_cases h2 : event.thread_id ≠ ""
  · rw [if_pos h1, if_pos h1, if_pos h2, if_pos h2, hsplit,
      stripAnsi_column colors.GREY stripAnsi_grey event.time_str ht,
      stripAnsi_column colors.CYAN stripAnsi_cyan event.thread_id hd,
      stripAnsi_column (get_color event.priority) (stripAnsi_get_color _)
        (padTo5 event.priority_str) (padTo5_noEsc hp), hmsg]
    simp [String.data_append, data_mk, List.append_assoc]
  · rw [if_pos h1, if_pos h1, if_neg h2, if_neg h2, hsplit, hnil, List.nil_append,
      stripAnsi_column colors.GREY stripAnsi_grey event.time_str ht,
      stripAnsi_column (get_color event.priority) (stripAnsi_get_color _)
        (padTo5 event.priority_str) (padTo5_noEsc hp), hmsg]
    simp [String.data_append, data_mk, List.append_assoc]
  · rw [if_neg h1, if_neg h1, if_pos h2, if_pos h2, hsplit, hnil, List.nil_append,
      stripAnsi_column colors.CYAN stripAnsi_cyan event.thread_id hd,
      stripAnsi_column (get_color event.priority) (stripAnsi_get_color _)
        (padTo5 event.priority_str) (padTo5_noEsc hp), hmsg]
    simp [String.data_append, data_mk, List.append_assoc]
  · rw [if_neg h1, if_neg h1, if_neg h2, if_neg h2, hsplit, hnil, List.nil_append,
      List.nil_append,
      stripAnsi_column (get_color event.priority) (stripAnsi_get_color _)
        (padTo5 event.priority_str) (padTo5_noEsc hp), hmsg]
    simp [String.data_append, data_mk, List.append_assoc]

theorem mem_column_spec {s : String} {c : Char} (hs : ∀ x ∈ s.data, x ≠ '\x1b')
    (hc : c ∈ ("[" ++ s ++ "]" ++ " ").data) : c ≠ '\x1b' := by
  rw [String.data_append, String.data_append, String.data_append] at hc
  rcases List.mem_append.mp hc with hc | hc
  · rcases List.mem_append.mp hc with hc | hc
    · rcases List.mem_append.mp hc with hc | hc
      · rw [data_lbracket] at hc
        simp only [List.mem_singleton] at hc
        subst hc
        decide
      · exact hs c hc
    · rw [data_rbracket] at hc
      simp only [List.mem_singleton] at hc
      subst hc
      decide
  · rw [data_space] at hc
    simp only [List.mem_singleton] at hc
    subst hc
    decide

theorem fileLine_noEsc (event : LogEvent) (plainMsg : List Char)
    (ht : ∀ c ∈ event.time_str.data, c ≠ '\x1b')
    (hd : ∀ c ∈ event.thread_id.data, c ≠ '\x1b')
    (hp : ∀ c ∈ event.priority_str.data, c ≠ '\x1b')
    (hpm : ∀ c ∈ plainMsg, c ≠ '\x1b') :
    ∀ c ∈ (fileLine event plainMsg).data, c ≠ '\x1b' := by
  intro c hc
  unfold fileLine at hc
  rw [String.data_append, String.data_append, String.data_append] at hc
  rcases List.mem_append.mp hc with hc | hc
  · rcases List.mem_append.mp hc with hc | hc
    · rcases List.mem_append.mp hc with hc | hc
      · by_cases h1 : event.time_str ≠ ""
        · rw [if_pos h1] at hc
          exact mem_column_spec ht hc
        · rw [if_neg h1, data_empty] at hc
          cases hc
      · by_cases h2 : event.thread_id ≠ ""
        · rw [if_pos h2] at hc
          exact mem_column_spec hd hc
        · rw [if_neg h2, data_empty] at hc
          cases hc
    · exact mem_column_spec (padTo5_noEsc hp) hc
  · rw [data_mk] at hc
    exact hpm c hc

/-- C7: for every event delivered to an open file sink — including an
event whose message carries color markup (any interleaving of plain text
with complete ANSI escape sequences) — exactly one line is written:
optional bracketed timestamp, optional bracketed producer-identity,
bracketed fixed-width level tag, then the message text with its markup
removed; the line is newline-terminated and the written text contains no
escape byte — every color escape sequence, the formatter's own and the
message's, is stripped before writing.  The timestamp, thread-id and tag
columns are generated by the logger itself and carry no escape byte. -/
theorem file_sink_line_layout_no_ansi (fa : FileAppender) (event : LogEvent)
    (plainMsg : List Char) (hopen : fa.is_open = true)
    (ht : ∀ c ∈ event.time_str.data, c ≠ '\x1b')
    (hd : ∀ c ∈ event.thread_id.data, c ≠ '\x1b')
    (hp : ∀ c ∈ event.priority_str.data, c ≠ '\x1b')
    (hm : ColorText event.message.data plainMsg) :
    fa.log (formatEvent event) =
      { fa with contents := fa.contents ++ fileLine event plainMsg ++ "\n" } ∧
    (∀ c ∈ (fileLine event plainMsg).data, c ≠ '\x1b') := by
  refine ⟨?_, fileLine_noEsc event plainMsg ht hd hp (colorText_plain_noEsc hm)⟩
  unfold FileAppender.log
  rw [if_pos hopen]
  have hstrip : strip_ansi (formatEvent event) = fileLine event plainMsg := by
    unfold strip_ansi
    rw [stripAnsi_formatEvent event plainMsg ht hd hp hm]
  rw [hstrip]

/-- Closed instance of `file_sink_line_layout_no_ansi` at an event whose
rendered message itself contains color markup (red text wrapped in
`ESC [31m` … `ESC [0m`): the persisted line carries the markup-free
message. -/
theorem file_sink_line_layout_no_ansi_witness :
    FileAppender.log ⟨true, ""⟩
        (formatEvent ⟨.ERROR, "ERROR", "\x1b[31mred\x1b[0m", "", ""⟩) =
      { is_open := true,
        contents := "" ++
          fileLine ⟨.ERROR, "ERROR", "\x1b[31mred\x1b[0m", "", ""⟩ ['r', 'e', 'd'] ++
          "\n" } :=
  (file_sink_line_layout_no_ansi ⟨true, ""⟩
    ⟨.ERROR, "ERROR", "\x1b[31mred\x1b[0m", "", ""⟩ ['r', 'e', 'd'] rfl
    (by decide) (by decide) (by decide)
    (by
      have e1 : IsEscSeq ['\x1b', '[', '3', '1', 'm'] :=
        @IsEscSeq.csi ['3', '1'] 'm' (by decide) (by decide) (by decide) (by decide)
      have e2 : IsEscSeq ['\x1b', '[', '0', 'm'] :=
        @IsEscSeq.csi ['0'] 'm' (by decide) (by decide) (by decide) (by decide)
      have c1 : ColorText ['\x1b', '[', '0', 'm'] [] :=
        ColorText.esc e2 ColorText.nil
      have c2 : ColorText ('d' :: '\x1b' :: '[' :: '0' :: 'm' :: []) ['d'] :=
        ColorText.chr (by decide) c1
      have c3 : ColorText ('e' :: 'd' :: '\x1b' :: '[' :: '0' :: 'm' :: []) ['e', 'd'] :=
        ColorText.chr (by decide) c2
      have c4 : ColorText ('r' :: 'e' :: 'd' :: '\x1b' :: '[' :: '0' :: 'm' :: [])
          ['r', 'e', 'd'] := ColorText.chr (by decide) c3
      exact ColorText.esc e1 c4)).1

/-- The final loop of `Logger::worker_loop` after the stop request:
`while (_queue.dequeue(event)) write_to_appenders(event);`. -/
def Logger.finalDrain (l : Logger) : Logger :=
  match hd : l.queue.dequeue with
  | none => l
  | some s => Logger.finalDrain (({ l with queue := s.2 } : Logger).write_to_appenders s.1).1
termination_by l.queue.heap.length
decreasing_by simpa [Logger.write_to_appenders] using MpscQueue.dequeue_length hd

theorem finalDrain_eq_none {l : Logger} (h : l.queue.dequeue = none) :
    l.finalDrain = l := by
  conv_lhs => unfold Logger.finalDrain
  split
  next => rfl
  next s heq => rw [h] at heq; exact absurd heq (by simp)

theorem finalDrain_eq_some {l : Logger} {v : LogEvent} {q' : MpscQueue LogEvent}
    (h : l.queue.dequeue = some (v, q')) :
    l.finalDrain = (({ l with queue := q' } : Logger).write_to_appenders v).1.finalDrain := by
  conv_lhs => unfold Logger.finalDrain
  split
  next heq => rw [h] at heq; exact absurd heq (by simp)
  next s heq =>
    rw [h] at heq
    injection heq with h2
    subst h2
    rfl

/-- C3: after a stop request the dispatcher's final drain loop dequeues
every event still in the queue and dispatches each, in order, to every
registered sink before the task ends; the queue reports empty afterwards
— no queued event is silently dropped. -/
theorem worker_final_drain_dispatches_all :
    ∀ {addrs : List Nat} {l : Logger}, QueueInv l.queue addrs →
      (l.finalDrain).appenders =
        l.appenders.map (fun s =>
          ⟨s.received ++ (queueVals l.queue addrs).map formatEvent⟩) ∧
      (l.finalDrain).queue.empty = true := by
  intro addrs
  induction addrs with
  | nil => intro l h; exact absurd rfl (addrs_ne_nil h)
  | cons s rest ih =>
    intro l h
    cases rest with
    | nil =>
      obtain ⟨hdq, hempty⟩ := dequeue_none_of_single h
      rw [finalDrain_eq_none hdq]
      refine ⟨?_, hempty⟩
      have hone : ∀ sk : Sink,
          (⟨sk.received ++ (queueVals l.queue [s]).map formatEvent⟩ : Sink) = sk := by
        intro sk
        simp [queueVals]
      rw [map_congr_mem (fun a _ => hone a)]
      simp
    | cons b rest2 =>
      obtain ⟨hdq, hinv⟩ := dequeue_some_of_cons h
      have hsnot : s ∉ b :: rest2 := (List.nodup_cons.mp h.nodup).1
      rw [finalDrain_eq_some hdq]
      obtain ⟨ihA, ihE⟩ := ih (show QueueInv
        ((({ l with queue := { l.queue with heap := eraseKey l.queue.heap s, head := b } }
          : Logger).write_to_appenders (dataAt l.queue.heap b)).1).queue (b :: rest2) from hinv)
      refine ⟨?_, ihE⟩
      rw [ihA]
      have happ : ((({ l with queue :=
            { l.queue with heap := eraseKey l.queue.heap s, head := b } }
          : Logger).write_to_appenders (dataAt l.queue.heap b)).1).appenders
          = l.appenders.map
            (fun sk => ⟨sk.received ++ [formatEvent (dataAt l.queue.heap b)]⟩) := rfl
      rw [happ, List.map_map]
      refine map_congr_mem (fun sk _ => ?_)
      have hvals : queueVals ((({ l with queue :=
            { l.queue with heap := eraseKey l.queue.heap s, head := b } }
          : Logger).write_to_appenders (dataAt l.queue.heap b)).1).queue (b :: rest2)
          = rest2.map (dataAt l.queue.heap) := by
        show rest2.map (dataAt (eraseKey l.queue.heap s)) = _
        exact map_congr_mem (fun x hx =>
          dataAt_eraseKey_ne _ (fun hh => hsnot (hh ▸ List.mem_cons_of_mem _ hx)))
      have hvals2 : queueVals l.queue (s :: b :: rest2)
          = dataAt l.queue.heap b :: rest2.map (dataAt l.queue.heap) := by
        simp [queueVals]
      simp [Function.comp, hvals, hvals2, List.append_assoc]

/-- Closed instance of `worker_final_drain_dispatches_all`: one sink, one
queued event. -/
theorem worker_final_drain_dispatches_all_witness :
    (({ Logger.initState with
        queue := (MpscQueue.new LogEvent).enqueue ⟨.INFO, "INFO", "x", "", ""⟩,
        appenders := [⟨[]⟩] } : Logger).finalDrain).appenders =
      [(⟨[]⟩ : Sink)].map (fun s => ⟨s.received ++
        (queueVals ((MpscQueue.new LogEvent).enqueue ⟨.INFO, "INFO", "x", "", ""⟩)
          [0, 1]).map formatEvent⟩) :=
  (@worker_final_drain_dispatches_all [0, 1]
    { Logger.initState with
        queue := (MpscQueue.new LogEvent).enqueue ⟨.INFO, "INFO", "x", "", ""⟩,
        appenders := [⟨[]⟩] }
    ⟨by decide, by decide, by decide, by decide, by decide⟩).1

/-- Phase of the worker (dispatcher) thread inside `Logger::worker_loop`. -/
inductive WorkerPhase where
  | deq
  | dec
  | waitCheck
  | blocked
deriving DecidableEq, Repr

/-- Interleaved state of the async delivery path.  Producers are
symmetric, so the state records how many sit at each point of
`Logger::log`'s ASYNC branch: `idleP` outside the enqueue-increment
window, `incP` between the completed `enqueue` and the
`fetch_add` + `notify_one` pair.  `q` is the number of events linked in
the queue, `c` the value of `_queue_counter`, `worker` the dispatcher's
phase: about to `dequeue` (`deq`), about to `fetch_sub` after a dispatch
(`dec`), about to call `_queue_counter.wait(curr)` with `curr = 0` after
an empty dequeue (`waitCheck`), or blocked inside that wait
(`blocked`). -/
structure Sys where
  q : Nat
  c : Int
  idleP : Nat
  incP : Nat
  worker : WorkerPhase
deriving DecidableEq, Repr

/-- One interleaving step of the async protocol.  `atomic::wait(curr)`
returns immediately when the value differs from `curr` — it re-checks the
value before blocking (`worker_wait_returns` versus
`worker_wait_blocks`) — and a blocked waiter is woken by a
`fetch_add` + `notify_one` that changed the value (`worker_wake`). -/
inductive Step : Sys → Sys → Prop where
  | producer_enqueue (s : Sys) : 0 < s.idleP →
      Step s { s with q := s.q + 1, idleP := s.idleP - 1, incP := s.incP + 1 }
  | producer_signal (s : Sys) : 0 < s.incP →
      Step s { s with c := s.c + 1, incP := s.incP - 1, idleP := s.idleP + 1 }
  | worker_dequeue_ok (s : Sys) : s.worker = .deq → 0 < s.q →
      Step s { s with q := s.q - 1, worker := .dec }
  | worker_dequeue_empty (s : Sys) : s.worker = .deq → s.q = 0 →
      Step s { s with worker := .waitCheck }
  | worker_decrement (s : Sys) : s.worker = .dec →
      Step s { s with c := s.c - 1, worker := .deq }
  | worker_wait_returns (s : Sys) : s.worker = .waitCheck → s.c ≠ 0 →
      Step s { s with worker := .deq }
  | worker_wait_blocks (s : Sys) : s.worker = .waitCheck → s.c = 0 →
      Step s { s with worker := .blocked }
  | worker_wake (s : Sys) : s.worker = .blocked → s.c ≠ 0 →
      Step s { s with worker := .deq }

/-- The initial state with `n` producer threads: empty queue, zero
counter, worker about to dequeue. -/
def Sys.start (n : Nat) : Sys := ⟨0, 0, n, 0, .deq⟩

/-- States the async protocol can reach with `n` producers. -/
def Reachable (n : Nat) (s : Sys) : Prop :=
  Relation.ReflTransGen Step (Sys.start n) s

/-- The decrement the worker still owes the counter for an event it
already dequeued. -/
def owedDec (s : Sys) : Int := if s.worker = .dec then 1 else 0

/-- Inductive invariant of the protocol: counter plus pending increments
balances the queue plus the owed decrement, and the dispatcher is never
blocked while an event is pending unless a wake is already enabled
(`c ≠ 0`) or still guaranteed to come (a producer sits before its
`fetch_add` + `notify_one`). -/
def SysInv (s : Sys) : Prop :=
  s.c + (s.incP : Int) = (s.q : Int) + owedDec s ∧
  (s.worker = .blocked → s.c ≠ 0 ∨ 0 < s.incP ∨ s.q = 0)

theorem sysInv_start (n : Nat) : SysInv (Sys.start n) := by
  constructor
  · simp [Sys.start, owedDec]
  · intro hb
    simp [Sys.start] at hb

theorem sysInv_step {s t : Sys} (h : SysInv s) (hst : Step s t) : SysInv t := by
  obtain ⟨h1, h2⟩ := h
  cases hst with
  | producer_enqueue hp =>
    refine ⟨?_, fun _ => Or.inr (Or.inl (Nat.succ_pos _))⟩
    show s.c + ((s.incP + 1 : Nat) : Int) = ((s.q + 1 : Nat) : Int) + owedDec s
    generalize ho : owedDec s = o at h1 ⊢
    omega
  | producer_signal hp =>
    refine ⟨?_, ?_⟩
    · show s.c + 1 + ((s.incP - 1 : Nat) : Int) = (s.q : Int) + owedDec s
      generalize ho : owedDec s = o at h1 ⊢
      omega
    · intro hb
      have hbs : s.worker = .blocked := hb
      have ho : owedDec s = 0 := by simp [owedDec, hbs]
      rw [ho] at h1
      show s.c + 1 ≠ 0 ∨ 0 < s.incP - 1 ∨ s.q = 0
      omega
  | worker_dequeue_ok hw hq =>
    refine ⟨?_, fun hb => ?_⟩
    · have hos : owedDec s = 0 := by simp [owedDec, hw]
      rw [hos] at h1
      show s.c + (s.incP : Int) = ((s.q - 1 : Nat) : Int) + owedDec ⟨s.q - 1, s.c, s.idleP, s.incP, .dec⟩
      have hot : owedDec ⟨s.q - 1, s.c, s.idleP, s.incP, .dec⟩ = 1 := rfl
      rw [hot]
      omega
    · simp at hb
  | worker_dequeue_empty hw hq =>
    refine ⟨?_, fun hb => ?_⟩
    · have hos : owedDec s = 0 := by simp [owedDec, hw]
      rw [hos] at h1
      show s.c + (s.incP : Int) = (s.q : Int) + owedDec ⟨s.q, s.c, s.idleP, s.incP, .waitCheck⟩
      have hot : owedDec ⟨s.q, s.c, s.idleP, s.incP, .waitCheck⟩ = 0 := rfl
      rw [hot]
      omega
    · simp at hb
  | worker_decrement hw =>
    refine ⟨?_, fun hb => ?_⟩
    · have hos : owedDec s = 1 := by simp [owedDec, hw]
      rw [hos] at h1
      show s.c - 1 + (s.incP : Int) = (s.q : Int) + owedDec ⟨s.q, s.c - 1, s.idleP, s.incP, .deq⟩
      have hot : owedDec ⟨s.q, s.c - 1, s.idleP, s.incP, .deq⟩ = 0 := rfl
      rw [hot]
      omega
    · simp at hb
  | worker_wait_returns hw hc =>
    refine ⟨?_, fun hb => ?_⟩
    · have hos : owedDec s = 0 := by simp [owedDec, hw]
      rw [hos] at h1
      show s.c + (s.incP : Int) = (s.q : Int) + owedDec ⟨s.q, s.c, s.idleP, s.incP, .deq⟩
      have hot : owedDec ⟨s.q, s.c, s.idleP, s.incP, .deq⟩ = 0 := rfl
      rw [hot]
      omega
    · simp at hb
  | worker_wait_blocks hw hc =>
    refine ⟨?_, fun hb => ?_⟩
    · have hos : owedDec s = 0 := by simp [owedDec, hw]
      rw [hos] at h1
      show s.c + (s.incP : Int) = (s.q : Int) + owedDec ⟨s.q, s.c, s.idleP, s.incP, .blocked⟩
      have hot : owedDec ⟨s.q, s.c, s.idleP, s.incP, .blocked⟩ = 0 := rfl
      rw [hot]
      omega
    · have hos : owedDec s = 0 := by simp [owedDec, hw]
      rw [hos] at h1
      show s.c ≠ 0 ∨ 0 < s.incP ∨ s.q = 0
      omega
  | worker_wake hw hc =>
    refine ⟨?_, fun hb => ?_⟩
    · have hos : owedDec s = 0 := by simp [owedDec, hw]
      rw [hos] at h1
      show s.c + (s.incP : Int) = (s.q : Int) + owedDec ⟨s.q, s.c, s.idleP, s.incP, .deq⟩
      have hot : owedDec ⟨s.q, s.c, s.idleP, s.incP, .deq⟩ = 0 := rfl
      rw [hot]
      omega
    · simp at hb

theorem reachable_sysInv {n : Nat} {s : Sys} (h : Reachable n s) : SysInv s := by
  induction h with
  | refl => exact sysInv_start n
  | tail hab hbc ih => exact sysInv_step ih hbc

/-- C4: when dequeue reports empty the dispatcher waits on the
pending-count against the recorded value `curr = 0`, and the wait
primitive re-checks the value immediately before blocking: it blocks only
if the counter still equals `curr` at the check, so an increment-and-wake
landing between the failed dequeue and the wait start makes the wait
return immediately; once blocked, the worker is released only by a
counter change; and in every reachable state a blocked dispatcher has
either an enabled wake (`c ≠ 0`), a producer still bound to
increment-and-notify, or a genuinely empty queue — a producer's
increment-and-wake is never lost and delivery never stalls awaiting an
unrelated wake. -/
theorem wake_protocol_no_lost_wakeup {n : Nat} {s : Sys} (h : Reachable n s) :
    (∀ t : Sys, Step s t → s.worker = .waitCheck → t.worker = .blocked → s.c = 0) ∧
    (∀ t : Sys, Step s t → s.worker = .waitCheck → s.c ≠ 0 → t.worker ≠ .blocked) ∧
    (∀ t : Sys, Step s t → s.worker = .blocked → t.worker = .deq → s.c ≠ 0) ∧
    (s.worker = .blocked → s.c ≠ 0 ∨ 0 < s.incP ∨ s.q = 0) := by
  refine ⟨?_, ?_, ?_, (reachable_sysInv h).2⟩
  · intro t hst hw hb
    cases hst <;> simp_all
  · intro t hst hw hc hb
    cases hst <;> simp_all
  · intro t hst hw hb
    cases hst <;> simp_all

/-- Closed instance of `wake_protocol_no_lost_wakeup` at a reachable
blocked state with one producer: its final conjunct discharged. -/
theorem wake_protocol_no_lost_wakeup_witness :
    (⟨0, 0, 1, 0, .blocked⟩ : Sys).c ≠ 0 ∨ 0 < (⟨0, 0, 1, 0, .blocked⟩ : Sys).incP ∨
      (⟨0, 0, 1, 0, .blocked⟩ : Sys).q = 0 :=
  (wake_protocol_no_lost_wakeup (n := 1)
    (Relation.ReflTransGen.tail
      (Relation.ReflTransGen.tail Relation.ReflTransGen.refl
        (Step.worker_dequeue_empty (Sys.start 1) rfl rfl))
      (Step.worker_wait_blocks ⟨0, 0, 1, 0, .waitCheck⟩ rfl rfl))).2.2.2 rfl

end LoggerHpp
